import Mathlib

/-!
Verification of `src/datasources/aclu/build_classification_dict.py`.

The Python module is embedded shallowly:

* `pd.isna` / `None` / `NaN` cells are modelled by `Option`: `none` is the
  missing-value marker, `some s` a present string.
* The regular expressions of the module are small enough to be embedded as
  explicit recursive functions on `List Char`; the embedding fixes Python
  character classes to their ASCII core (`\d` is `0`-`9`, `[A-Z]` is
  `A`-`Z`, `\s` and `str.strip` use space/tab/newline/CR/VT/FF, `upper` and
  `lower` translate the 26 ASCII letters), matching the regex semantics on
  all ASCII input.
* Python `int` is `Nat` (the only integers produced are non-negative digit
  runs), and the f-string rendering of an `int` is decimal rendering with
  no leading zeros.
* `str.lower`/`str.upper`, slicing, and substring tests are translated
  character-by-character.

Every definition is executable, so each claim can be evaluated on the
concrete example strings of the module's docstrings.
-/

/-- ASCII core of the Python whitespace class used by the regex class of
whitespace and by `str.strip`: space, tab, newline, CR, VT, FF. -/
def isPySpace (c : Char) : Bool :=
  decide (c.toNat = 32 ∨ c.toNat = 9 ∨ c.toNat = 10 ∨ c.toNat = 13 ∨
    c.toNat = 11 ∨ c.toNat = 12)

/-- ASCII decimal digit, the regex digit class on ASCII input. -/
def isDigitChar (c : Char) : Bool := decide (48 ≤ c.toNat ∧ c.toNat ≤ 57)

/-- The regex character range of the uppercase ASCII letters. -/
def isUpperAlpha (c : Char) : Bool := decide (65 ≤ c.toNat ∧ c.toNat ≤ 90)

/-- ASCII core of Python `str.upper`, one character at a time. -/
def upperChar (c : Char) : Char :=
  if 97 ≤ c.toNat ∧ c.toNat ≤ 122 then Char.ofNat (c.toNat - 32) else c

/-- ASCII core of Python `str.lower`, one character at a time. -/
def lowerChar (c : Char) : Char :=
  if 65 ≤ c.toNat ∧ c.toNat ≤ 90 then Char.ofNat (c.toNat + 32) else c

/-- Value of a digit run, as computed by Python `int` on a matched group. -/
def natOfDigits (l : List Char) : Nat := l.foldl (fun n c => n * 10 + (c.toNat - 48)) 0

/-- Auxiliary decimal renderer; `fuel` bounds the recursion depth so the
definition is structural and computes by `rfl` inside the kernel. -/
def decDigitsAux (fuel n : Nat) (acc : List Char) : List Char :=
  match fuel with
  | 0 => acc
  | fuel + 1 =>
    if n = 0 then acc
    else decDigitsAux fuel (n / 10) (Char.ofNat (48 + n % 10) :: acc)

/-- Decimal rendering of a `Nat`, i.e. the f-string rendering of the Python
`int` obtained from a digit run. -/
def natToDecimal (n : Nat) : List Char := if n = 0 then ['0'] else decDigitsAux n n []

/-- Scan for the closing parenthesis that the lazily matched parenthetical
regex of `normalize_bill_number` would consume: the nearest `)` to the
right, provided no newline intervenes (the regex dot does not cross a
newline).  Returns the remainder after the `)`. -/
def findClose : List Char → Option (List Char)
  | [] => none
  | c :: rest =>
    if c = ')' then some rest
    else if c = '\n' then none
    else findClose rest

/-- One pass of the parenthetical-removal substitution
(`re.sub` of the lazy parenthetical pattern with the empty string), with
explicit fuel so the definition is structural. -/
def removeParensFuel : Nat → List Char → List Char
  | 0, l => l
  | _ + 1, [] => []
  | fuel + 1, c :: rest =>
    if c = '(' then
      match findClose rest with
      | some rest2 => removeParensFuel fuel rest2
      | none => c :: removeParensFuel fuel rest
    else c :: removeParensFuel fuel rest

/-- Removal of every (newline-free) parenthetical segment, as performed by
the parenthetical `re.sub` in `normalize_bill_number`. -/
def removeParens (l : List Char) : List Char := removeParensFuel l.length l

/-- Removal of every period (`re.sub` of a period with the empty string). -/
def removePeriods (l : List Char) : List Char := l.filter (fun c => !(c == '.'))

/-- Removal of every whitespace character (`re.sub` of a whitespace run
with the empty string). -/
def removeWhitespace (l : List Char) : List Char := l.filter (fun c => !(isPySpace c))

/-- Python `str.strip`: drop leading and trailing whitespace. -/
def pyStrip (l : List Char) : List Char :=
  ((l.dropWhile isPySpace).reverse.dropWhile isPySpace).reverse

/-- The cleaned form of a bill name produced by the general-case steps of
`normalize_bill_number`: uppercase, then drop parentheticals, periods and
whitespace. -/
def cleanedOf (s : String) : List Char :=
  removeWhitespace (removePeriods (removeParens (s.data.map upperChar)))

/-- Second capture group of the leading letters-zeros-digits pattern of
`normalize_bill_number`: the digit run with its leading zeros removed by
the greedy zeros loop (all-zero runs leave a single `0`). -/
def stripZeros (ds : List Char) : List Char :=
  if (ds.dropWhile (fun c => c == '0')).isEmpty then ['0']
  else ds.dropWhile (fun c => c == '0')

/-- `re.match` of the leading letters-then-digits pattern
(letter group, zeros, digit group) on the cleaned form, returning the
replacement string (letter group ++ zero-stripped digit group) on
success.  The anchored match succeeds exactly when the maximal leading
run of uppercase letters is non-empty and immediately followed by a
digit. -/
def generalMatch (cs : List Char) : Option (List Char) :=
  if (cs.takeWhile isUpperAlpha).isEmpty then none
  else if ((cs.dropWhile isUpperAlpha).takeWhile isDigitChar).isEmpty then none
  else some (cs.takeWhile isUpperAlpha ++
    stripZeros ((cs.dropWhile isUpperAlpha).takeWhile isDigitChar))

/-- Continuation of the Maine-format match after the literal `L.D`:
an optional period, optional whitespace, then a required digit run
(the capture group, returned on success). -/
def maineTail (rest : List Char) : Option (List Char) :=
  let rest2 := match rest with
    | '.' :: r => r
    | r => r
  let rest3 := rest2.dropWhile isPySpace
  let ds := rest3.takeWhile isDigitChar
  if ds.isEmpty then none else some ds

/-- `re.match` of the Maine pattern (literal `L.D`, optional period,
whitespace, digit group) against the raw bill name. -/
def maineMatch (cs : List Char) : Option (List Char) :=
  match cs with
  | 'L' :: '.' :: 'D' :: rest => maineTail rest
  | _ => none

/-- `normalize_bill_number` from the Python module: missing values pass
through; the Maine format returns `LD` plus the integer value of its digit
run; otherwise the cleaned form is rewritten by the leading
letters-then-digits pattern when it matches and returned as-is when it
does not, with a final `str.strip`. -/
def normalize_bill_number : Option String → Option String
  | none => none
  | some s =>
    match maineMatch s.data with
    | some ds => some (String.mk ('L' :: 'D' :: natToDecimal (natOfDigits ds)))
    | none =>
      let cleaned := cleanedOf s
      match generalMatch cleaned with
      | some r => some (String.mk (pyStrip r))
      | none => some (String.mk (pyStrip cleaned))

/-- Leftmost window of four consecutive digit characters
(`re.search` of a four-digit group): scan left to right, succeed at the
first position where four consecutive digits start. -/
def findFourDigits : List Char → Option (List Char)
  | a :: b :: c :: d :: rest =>
    if isDigitChar a && isDigitChar b && isDigitChar c && isDigitChar d then
      some [a, b, c, d]
    else findFourDigits (b :: c :: d :: rest)
  | _ => none

/-- `extract_year` from the Python module: the fixed fallback year `2025`
for a missing value or for a string with no four-consecutive-digit window,
else the integer value of the leftmost such window. -/
def extract_year : Option String → Nat
  | none => 2025
  | some s =>
    match findFourDigits s.data with
    | some ds => natOfDigits ds
    | none => 2025

/-- Python substring containment (`needle in hay`) on character lists. -/
def hasSub (needle : List Char) : List Char → Bool
  | [] => needle.isEmpty
  | c :: rest => needle.isPrefixOf (c :: rest) || hasSub needle rest

/-- The nine keyword groups of `categorize_issues`, in the order of the
nine `if` statements of the source, each with its category label. -/
def keywordGroups : List (List String × String) :=
  [ (["healthcare", "medical"], "healthcare"),
    (["school", "student", "educator"], "education"),
    (["sports"], "sports"),
    (["facilities", "bathroom"], "facilities"),
    (["religious"], "religious_exemption"),
    (["curriculum", "outing", "don\x27t say"], "schools_speech"),
    (["id", "definition of sex", "re-definition"], "identity_documents"),
    (["drag", "expression"], "expression"),
    (["accommodation"], "public_accommodations") ]

/-- Does one of the keywords of a group occur in the lowercased text
(the `any(x in issues_lower for x in [...])` test of the source)? -/
def groupMatches (il : List Char) (g : List String × String) : Bool :=
  g.1.any (fun kw => hasSub kw.data il)

/-- `categorize_issues` from the Python module.  The source accumulates
the matched labels in a set and returns `list(categories)`; the embedding
lists the matched groups in source order, which carries the same members
(each label occurs for exactly one group, so there are no duplicates). -/
def categorize_issues : Option String → List String
  | none => ["other"]
  | some s =>
    let il := s.data.map lowerChar
    let categories := (keywordGroups.filter (groupMatches il)).map Prod.snd
    if categories.isEmpty then ["other"] else categories

/-- `STATE_ABBREV` from the Python module, in source order. -/
def STATE_ABBREV : List (String × String) :=
  [ ("Alabama", "AL"), ("Alaska", "AK"), ("Arizona", "AZ"), ("Arkansas", "AR"),
    ("California", "CA"), ("Colorado", "CO"), ("Connecticut", "CT"), ("Delaware", "DE"),
    ("Florida", "FL"), ("Georgia", "GA"), ("Hawaii", "HI"), ("Idaho", "ID"),
    ("Illinois", "IL"), ("Indiana", "IN"), ("Iowa", "IA"), ("Kansas", "KS"),
    ("Kentucky", "KY"), ("Louisiana", "LA"), ("Maine", "ME"), ("Maryland", "MD"),
    ("Massachusetts", "MA"), ("Michigan", "MI"), ("Minnesota", "MN"), ("Mississippi", "MS"),
    ("Missouri", "MO"), ("Montana", "MT"), ("Nebraska", "NE"), ("Nevada", "NV"),
    ("New Hampshire", "NH"), ("New Jersey", "NJ"), ("New Mexico", "NM"), ("New York", "NY"),
    ("North Carolina", "NC"), ("North Dakota", "ND"), ("Ohio", "OH"), ("Oklahoma", "OK"),
    ("Oregon", "OR"), ("Pennsylvania", "PA"), ("Rhode Island", "RI"), ("South Carolina", "SC"),
    ("South Dakota", "SD"), ("Tennessee", "TN"), ("Texas", "TX"), ("Utah", "UT"),
    ("Vermont", "VT"), ("Virginia", "VA"), ("Washington", "WA"), ("West Virginia", "WV"),
    ("Wisconsin", "WI"), ("Wyoming", "WY"), ("District of Columbia", "DC") ]

/-- Python `s[:2].upper()`: the first (up to) two characters, uppercased. -/
def firstTwoUpper (s : String) : String := String.mk ((s.data.take 2).map upperChar)

/-- `STATE_ABBREV.get(state, state[:2].upper())`: dictionary lookup with
the first-two-characters fallback. -/
def resolveStateAbbrev (s : String) : String :=
  (STATE_ABBREV.lookup s).getD (firstTwoUpper s)

/-- One row of the tracker CSV, with the six columns the pipeline reads.
A `none` field is a missing (NaN) cell. -/
structure InputRow where
  state : Option String
  billName : Option String
  status : Option String
  statusDetail : Option String
  statusDate : Option String
  issues : Option String
deriving DecidableEq

/-- One output record of the classification dictionary, with the fields
assembled by `build_classification_dict` for each row. -/
structure Record where
  state : String
  bill_number : Option String
  year : Nat
  state_full : String
  bill_number_raw : Option String
  status : Option String
  status_detail : Option String
  issues_raw : Option String
  issue_categories : List String
  label : String
  source : String
  legiscan_bill_id : Option Nat
  legiscan_text_url : Option String
deriving DecidableEq

/-- The footer filter of `build_classification_dict`: keep a row exactly
when its `State` cell is present and does not contain the footer marker
substring `Data is current`. -/
def keepRow (r : InputRow) : Bool :=
  match r.state with
  | none => false
  | some st => !(hasSub ("Data is current").data st.data)

/-- The record built from one (kept) row.  `keepRow` guarantees the state
cell is present, so the `getD` default is never consulted on pipeline
input. -/
def mkRecord (r : InputRow) : Record :=
  let st := r.state.getD ""
  { state := resolveStateAbbrev st,
    bill_number := normalize_bill_number r.billName,
    year := extract_year r.statusDate,
    state_full := st,
    bill_number_raw := r.billName,
    status := r.status,
    status_detail := r.statusDetail,
    issues_raw := r.issues,
    issue_categories := categorize_issues r.issues,
    label := "harmful",
    source := "aclu_tracker",
    legiscan_bill_id := none,
    legiscan_text_url := none }

/-- The record-building loop of `build_classification_dict`: filter the
footer rows, then build one record per remaining row, in order.  (File
loading and the two serializations are out-of-scope glue.) -/
def build_classification_dict (rows : List InputRow) : List Record :=
  (rows.filter keepRow).map mkRecord

/-- Some four consecutive characters of the list are all digits: the
success condition of the four-digit search of `extract_year`. -/
def hasFourDigitWindow (l : List Char) : Prop :=
  ∃ p a b c d q, l = p ++ [a, b, c, d] ++ q ∧
    isDigitChar a = true ∧ isDigitChar b = true ∧
    isDigitChar c = true ∧ isDigitChar d = true

/-- The fifty US state names plus the District of Columbia. -/
def usStateNames : List String :=
  [ "Alabama", "Alaska", "Arizona", "Arkansas", "California", "Colorado",
    "Connecticut", "Delaware", "Florida", "Georgia", "Hawaii", "Idaho",
    "Illinois", "Indiana", "Iowa", "Kansas", "Kentucky", "Louisiana",
    "Maine", "Maryland", "Massachusetts", "Michigan", "Minnesota",
    "Mississippi", "Missouri", "Montana", "Nebraska", "Nevada",
    "New Hampshire", "New Jersey", "New Mexico", "New York",
    "North Carolina", "North Dakota", "Ohio", "Oklahoma", "Oregon",
    "Pennsylvania", "Rhode Island", "South Carolina", "South Dakota",
    "Tennessee", "Texas", "Utah", "Vermont", "Virginia", "Washington",
    "West Virginia", "Wisconsin", "Wyoming", "District of Columbia" ]

/-- A concrete tracker row used to instantiate the per-row theorems. -/
def sampleRow : InputRow :=
  { state := some "Maine",
    billName := some "L.D. 1134 (S.P. 461)",
    status := some "Dead",
    statusDetail := none,
    statusDate := some "01/19/2025",
    issues := some "Healthcare" }

/-! ### Character-level facts -/

theorem char_eq_of_toNat_eq {a b : Char} (h : a.toNat = b.toNat) : a = b :=
  Char.eq_of_val_eq (UInt32.ext h)

theorem upperChar_idem (c : Char) : upperChar (upperChar c) = upperChar c := by
  by_cases h : 97 ≤ c.toNat ∧ c.toNat ≤ 122
  · have e : upperChar c = Char.ofNat (c.toNat - 32) := by
      unfold upperChar; exact if_pos h
    rw [e]
    obtain ⟨h1, h2⟩ := h
    interval_cases h3 : c.toNat <;> decide
  · have e : upperChar c = c := by unfold upperChar; exact if_neg h
    rw [e, e]

theorem upperChar_eq_self {c : Char} (h : ¬(97 ≤ c.toNat ∧ c.toNat ≤ 122)) :
    upperChar c = c := by
  unfold upperChar; exact if_neg h

theorem upperChar_of_digit {c : Char} (h : isDigitChar c = true) : upperChar c = c := by
  simp only [isDigitChar, decide_eq_true_eq] at h
  exact upperChar_eq_self (by omega)

theorem upperChar_of_upper {c : Char} (h : isUpperAlpha c = true) : upperChar c = c := by
  simp only [isUpperAlpha, decide_eq_true_eq] at h
  exact upperChar_eq_self (by omega)

theorem upperChar_toNat_ne_ten {c : Char} (h : c.toNat ≠ 10) : (upperChar c).toNat ≠ 10 := by
  unfold upperChar
  split
  · rename_i hr
    obtain ⟨h1, h2⟩ := hr
    interval_cases h3 : c.toNat <;> decide
  · exact h

theorem upperChar_eq_newline {c : Char} (h : upperChar c = '\n') : c = '\n' := by
  by_contra hne
  have h10 : c.toNat ≠ 10 := fun he => hne (char_eq_of_toNat_eq he)
  have h2 := upperChar_toNat_ne_ten h10
  rw [h] at h2
  exact h2 rfl

theorem not_dot_of_digit {c : Char} (h : isDigitChar c = true) : c ≠ '.' := by
  intro he; subst he; exact absurd h (by decide)

theorem not_dot_of_upper {c : Char} (h : isUpperAlpha c = true) : c ≠ '.' := by
  intro he; subst he; exact absurd h (by decide)

theorem not_lparen_of_digit {c : Char} (h : isDigitChar c = true) : c ≠ '(' := by
  intro he; subst he; exact absurd h (by decide)

theorem not_lparen_of_upper {c : Char} (h : isUpperAlpha c = true) : c ≠ '(' := by
  intro he; subst he; exact absurd h (by decide)

theorem pySpace_false_of_digit {c : Char} (h : isDigitChar c = true) : isPySpace c = false := by
  simp only [isDigitChar, decide_eq_true_eq] at h
  simp only [isPySpace, decide_eq_false_iff_not]
  omega

theorem pySpace_false_of_upper {c : Char} (h : isUpperAlpha c = true) : isPySpace c = false := by
  simp only [isUpperAlpha, decide_eq_true_eq] at h
  simp only [isPySpace, decide_eq_false_iff_not]
  omega

theorem upper_false_of_digit {c : Char} (h : isDigitChar c = true) : isUpperAlpha c = false := by
  simp only [isDigitChar, decide_eq_true_eq] at h
  simp only [isUpperAlpha, decide_eq_false_iff_not]
  omega

theorem toNat_ofNat_digit (k : Nat) (h : k < 10) : (Char.ofNat (48 + k)).toNat = 48 + k := by
  interval_cases k <;> decide

/-! ### List-level helper facts -/

theorem map_eq_self_of {f : Char → Char} :
    ∀ l : List Char, (∀ c ∈ l, f c = c) → l.map f = l
  | [], _ => rfl
  | a :: t, h => by
    simp only [List.map_cons, h a (by simp)]
    rw [map_eq_self_of t (fun c hc => h c (by simp [hc]))]

theorem dropWhile_eq_self_of_head {p : Char → Bool} :
    ∀ l : List Char, (∀ c, l.head? = some c → p c = false) → l.dropWhile p = l
  | [], _ => rfl
  | a :: t, h => by simp [List.dropWhile, h a rfl]

theorem dropWhile_eq_self_of_all {p : Char → Bool} (l : List Char)
    (h : ∀ c ∈ l, p c = false) : l.dropWhile p = l := by
  apply dropWhile_eq_self_of_head
  intro c hc
  exact h c (List.mem_of_mem_head? hc)

theorem pyStrip_eq_self (l : List Char) (h : ∀ c ∈ l, isPySpace c = false) :
    pyStrip l = l := by
  unfold pyStrip
  rw [dropWhile_eq_self_of_all l h]
  rw [dropWhile_eq_self_of_all l.reverse (fun c hc => h c (List.mem_reverse.mp hc))]
  exact List.reverse_reverse l

theorem takeWhile_append_all {p : Char → Bool} :
    ∀ l1 l2 : List Char, (∀ c ∈ l1, p c = true) →
      (∀ c, l2.head? = some c → p c = false) → (l1 ++ l2).takeWhile p = l1
  | [], l2, _, h2 => by
    cases l2 with
    | nil => rfl
    | cons a t => simp [List.takeWhile, h2 a rfl]
  | a :: t, l2, h1, h2 => by
    simp only [List.cons_append, List.takeWhile_cons, h1 a (by simp), if_true]
    rw [takeWhile_append_all t l2 (fun c hc => h1 c (by simp [hc])) h2]

theorem dropWhile_append_all {p : Char → Bool} :
    ∀ l1 l2 : List Char, (∀ c ∈ l1, p c = true) →
      (∀ c, l2.head? = some c → p c = false) → (l1 ++ l2).dropWhile p = l2
  | [], l2, _, h2 => dropWhile_eq_self_of_head l2 h2
  | a :: t, l2, h1, h2 => by
    simp only [List.cons_append, List.dropWhile_cons, h1 a (by simp), if_true]
    rw [dropWhile_append_all t l2 (fun c hc => h1 c (by simp [hc])) h2]

/-! ### Facts about the parenthetical scan -/

theorem findClose_spec :
    ∀ l r : List Char, findClose l = some r → ∃ pre, l = pre ++ ')' :: r
  | [], r, h => by simp [findClose] at h
  | c :: t, r, h => by
    by_cases hc : c = ')'
    · subst hc
      simp only [findClose, if_true, Option.some.injEq] at h
      exact ⟨[], by simp [h]⟩
    · by_cases hn : c = '\n'
      · subst hn
        simp [findClose, hc] at h
      · have h2 : findClose t = some r := by
          simpa [findClose, hc, hn] using h
        obtain ⟨pre, hp⟩ := findClose_spec t r h2
        exact ⟨c :: pre, by simp [hp]⟩

theorem findClose_mem {l r : List Char} (h : findClose l = some r) {c : Char}
    (hc : c ∈ r) : c ∈ l := by
  obtain ⟨pre, hp⟩ := findClose_spec l r h
  subst hp
  simp [hc]

theorem findClose_length {l r : List Char} (h : findClose l = some r) :
    r.length < l.length := by
  obtain ⟨pre, hp⟩ := findClose_spec l r h
  subst hp
  simp [List.length_append]
  omega

theorem findClose_rparen {l r : List Char} (h : findClose l = some r) : ')' ∈ l := by
  obtain ⟨pre, hp⟩ := findClose_spec l r h
  subst hp
  simp

theorem findClose_isSome :
    ∀ l : List Char, '\n' ∉ l → ')' ∈ l → (findClose l).isSome = true
  | [], _, hr => by simp at hr
  | c :: t, hn, hr => by
    by_cases hc : c = ')'
    · subst hc; simp [findClose]
    · have hn1 : ¬c = '\n' := fun he => hn (by simp [he])
      have hr1 : ')' ∈ t := by
        rcases List.mem_cons.mp hr with h | h
        · exact absurd h.symm hc
        · exact h
      simp only [findClose, if_neg hc, if_neg hn1]
      exact findClose_isSome t (fun hm => hn (by simp [hm])) hr1

/-! ### Facts about parenthetical removal -/

theorem rpf_mem :
    ∀ (fuel : Nat) (l : List Char) (c : Char), c ∈ removeParensFuel fuel l → c ∈ l := by
  intro fuel
  induction fuel with
  | zero => intro l c h; exact h
  | succ fuel ih =>
    intro l c h
    cases l with
    | nil => exact h
    | cons a t =>
      simp only [removeParensFuel] at h
      split at h
      · split at h
        · rename_i rest2 hf
          have hc2 := ih rest2 c h
          exact List.mem_cons_of_mem a (findClose_mem hf hc2)
        · rcases List.mem_cons.mp h with he | he
          · simp [he]
          · exact List.mem_cons_of_mem a (ih t c he)
      · rcases List.mem_cons.mp h with he | he
        · simp [he]
        · exact List.mem_cons_of_mem a (ih t c he)

theorem rpf_noPair :
    ∀ (fuel : Nat) (l : List Char), l.length ≤ fuel → '\n' ∉ l →
      ¬List.Sublist ['(', ')'] (removeParensFuel fuel l) := by
  intro fuel
  induction fuel with
  | zero =>
    intro l hl _ hs
    have he : l = [] := List.length_eq_zero.mp (Nat.le_zero.mp hl)
    subst he
    simp [removeParensFuel] at hs
  | succ fuel ih =>
    intro l hl hn hs
    cases l with
    | nil => simp [removeParensFuel] at hs
    | cons a t =>
      have hnt : '\n' ∉ t := fun hm => hn (List.mem_cons_of_mem a hm)
      have hlt : t.length ≤ fuel := by
        simp only [List.length_cons] at hl; omega
      simp only [removeParensFuel] at hs
      split at hs
      · split at hs
        · rename_i rest2 hf
          obtain ⟨pre, hp⟩ := findClose_spec t rest2 hf
          have hlen : rest2.length ≤ fuel := by
            have := findClose_length hf
            omega
          have hnr : '\n' ∉ rest2 := fun hm => hnt (findClose_mem hf hm)
          exact ih rest2 hlen hnr hs
        · rename_i hf
          cases hs with
          | cons _ h => exact ih t hlt hnt h
          | cons₂ _ h =>
            have hr : ')' ∈ removeParensFuel fuel t := List.singleton_sublist.mp h
            have hrt : ')' ∈ t := rpf_mem fuel t ')' hr
            have hsome := findClose_isSome t hnt hrt
            rw [hf] at hsome
            exact absurd hsome (by decide)
      · rename_i ha
        cases hs with
        | cons _ h => exact ih t hlt hnt h
        | cons₂ _ h => exact ha rfl

theorem rpf_eq_self :
    ∀ (fuel : Nat) (l : List Char), ¬List.Sublist ['(', ')'] l →
      removeParensFuel fuel l = l := by
  intro fuel
  induction fuel with
  | zero => intro l _; rfl
  | succ fuel ih =>
    intro l hnp
    cases l with
    | nil => rfl
    | cons a t =>
      have htail : ¬List.Sublist ['(', ')'] t := fun hs => hnp (hs.cons a)
      by_cases ha : a = '('
      · subst ha
        have hr : ')' ∉ t := by
          intro hr
          exact hnp ((List.singleton_sublist.mpr hr).cons₂ '(')
        have hf : findClose t = none := by
          cases hfc : findClose t with
          | none => rfl
          | some r => exact absurd (findClose_rparen hfc) hr
        simp [removeParensFuel, hf, ih t htail]
      · simp only [removeParensFuel, if_neg ha]
        rw [ih t htail]

theorem noPair_of_no_lparen {l : List Char} (h : '(' ∉ l) :
    ¬List.Sublist ['(', ')'] l := by
  intro hs
  exact h (hs.subset (by simp))

theorem removeParens_mem {l : List Char} {c : Char} (h : c ∈ removeParens l) : c ∈ l :=
  rpf_mem l.length l c h

theorem removeParens_eq_self {l : List Char} (h : ¬List.Sublist ['(', ')'] l) :
    removeParens l = l :=
  rpf_eq_self l.length l h

theorem removeParens_noPair {l : List Char} (h : '\n' ∉ l) :
    ¬List.Sublist ['(', ')'] (removeParens l) :=
  rpf_noPair l.length l (Nat.le_refl _) h

/-! ### Facts about decimal rendering -/

theorem decDigitsAux_spec :
    ∀ n : Nat, 0 < n → ∀ (fuel : Nat) (acc : List Char), n ≤ fuel →
      ∃ d l, decDigitsAux fuel n acc = d :: (l ++ acc) ∧
        48 ≤ d.toNat ∧ d.toNat ≤ 57 ∧ d.toNat ≠ 48 ∧
        (∀ c ∈ l, 48 ≤ c.toNat ∧ c.toNat ≤ 57) := by
  intro n
  induction n using Nat.strong_induction_on with
  | _ n ih =>
    intro hn fuel acc hfuel
    cases fuel with
    | zero => omega
    | succ g =>
      have hn0 : ¬n = 0 := by omega
      simp only [decDigitsAux, if_neg hn0]
      have hm : n % 10 < 10 := Nat.mod_lt _ (by norm_num)
      by_cases h10 : n / 10 = 0
      · have hstep :
            decDigitsAux g (n / 10) (Char.ofNat (48 + n % 10) :: acc) =
              Char.ofNat (48 + n % 10) :: acc := by
          rw [h10]
          cases g with
          | zero => rfl
          | succ g2 => simp [decDigitsAux]
        rw [hstep]
        refine ⟨Char.ofNat (48 + n % 10), [], by simp, ?_, ?_, ?_, by simp⟩
        · rw [toNat_ofNat_digit _ hm]; omega
        · rw [toNat_ofNat_digit _ hm]; omega
        · rw [toNat_ofNat_digit _ hm]
          omega
      · have hlt : n / 10 < n := Nat.div_lt_self hn (by norm_num)
        obtain ⟨d, l, he, hd1, hd2, hd3, hl⟩ :=
          ih (n / 10) hlt (by omega) g (Char.ofNat (48 + n % 10) :: acc) (by omega)
        refine ⟨d, l ++ [Char.ofNat (48 + n % 10)], ?_, hd1, hd2, hd3, ?_⟩
        · rw [he]; simp
        · intro c hc
          rcases List.mem_append.mp hc with hc | hc
          · exact hl c hc
          · simp only [List.mem_singleton] at hc
            subst hc
            rw [toNat_ofNat_digit _ hm]
            omega

theorem natToDecimal_shape (n : Nat) (hn : 0 < n) :
    ∃ d l, natToDecimal n = d :: l ∧ 48 ≤ d.toNat ∧ d.toNat ≤ 57 ∧ d.toNat ≠ 48 ∧
      (∀ c ∈ l, 48 ≤ c.toNat ∧ c.toNat ≤ 57) := by
  obtain ⟨d, l, he, h1, h2, h3, hl⟩ := decDigitsAux_spec n hn n [] (Nat.le_refl n)
  refine ⟨d, l, ?_, h1, h2, h3, hl⟩
  rw [natToDecimal, if_neg (by omega)]
  simpa using he

theorem natToDecimal_digits (n : Nat) : ∀ c ∈ natToDecimal n, isDigitChar c = true := by
  by_cases hn : n = 0
  · subst hn; decide
  · obtain ⟨d, l, he, h1, h2, _, hl⟩ := natToDecimal_shape n (by omega)
    rw [he]
    intro c hc
    rcases List.mem_cons.mp hc with hc | hc
    · subst hc; simp only [isDigitChar, decide_eq_true_eq]; omega
    · have := hl c hc
      simp only [isDigitChar, decide_eq_true_eq]; omega

theorem natToDecimal_ne_nil (n : Nat) : natToDecimal n ≠ [] := by
  by_cases hn : n = 0
  · subst hn; decide
  · obtain ⟨d, l, he, _⟩ := natToDecimal_shape n (by omega)
    rw [he]; simp

/-! ### Facts about the zero-stripping group -/

theorem stripZeros_eq_self_of_head {ds : List Char}
    (h : ∀ c, ds.head? = some c → (c == '0') = false) (hne : ds ≠ []) :
    stripZeros ds = ds := by
  unfold stripZeros
  rw [dropWhile_eq_self_of_head ds h]
  simp [List.isEmpty_iff, hne]

theorem stripZeros_natToDecimal (n : Nat) : stripZeros (natToDecimal n) = natToDecimal n := by
  by_cases hn : n = 0
  · subst hn; decide
  · obtain ⟨d, l, he, h1, h2, h3, _⟩ := natToDecimal_shape n (by omega)
    apply stripZeros_eq_self_of_head
    · intro c hc
      rw [he] at hc
      simp only [List.head?_cons, Option.some.injEq] at hc
      rw [← hc]
      have hd0 : d ≠ '0' := fun he2 => h3 (by rw [he2]; rfl)
      simpa using hd0
    · rw [he]; simp

theorem stripZeros_ne_nil (ds : List Char) : stripZeros ds ≠ [] := by
  unfold stripZeros
  split
  · simp
  · rename_i h
    simpa [List.isEmpty_iff] using h

theorem stripZeros_digits {ds : List Char} (h : ∀ c ∈ ds, isDigitChar c = true) :
    ∀ c ∈ stripZeros ds, isDigitChar c = true := by
  intro c hc
  unfold stripZeros at hc
  split at hc
  · simp only [List.mem_singleton] at hc
    subst hc; decide
  · exact h c ((List.dropWhile_sublist _).subset hc)

theorem head_dropWhile_false (p : Char → Bool) :
    ∀ (l : List Char) (c : Char), (l.dropWhile p).head? = some c → p c = false
  | [], c, h => by simp [List.dropWhile] at h
  | a :: t, c, h => by
    by_cases ha : p a = true
    · rw [List.dropWhile_cons, if_pos ha] at h
      exact head_dropWhile_false p t c h
    · rw [List.dropWhile_cons, if_neg ha] at h
      simp only [List.head?_cons, Option.some.injEq] at h
      rw [← h]
      exact Bool.not_eq_true _ |>.mp ha

theorem stripZeros_idem (ds : List Char) : stripZeros (stripZeros ds) = stripZeros ds := by
  by_cases h : (ds.dropWhile (fun c => c == '0')).isEmpty = true
  · have e : stripZeros ds = ['0'] := by unfold stripZeros; rw [if_pos h]
    rw [e]; decide
  · have hne : ds.dropWhile (fun c => c == '0') ≠ [] := by
      simpa [List.isEmpty_iff] using h
    have e : stripZeros ds = ds.dropWhile (fun c => c == '0') := by
      unfold stripZeros; rw [if_neg h]
    rw [e]
    exact stripZeros_eq_self_of_head (fun c hc => head_dropWhile_false _ ds c hc) hne

/-! ### Facts about the two bill-number patterns -/

theorem maineMatch_eq_none_of_no_dot {l : List Char} (h : '.' ∉ l) :
    maineMatch l = none := by
  unfold maineMatch
  split
  · exfalso; simp_all
  · rfl

theorem generalMatch_eq_some_of {L D R : List Char}
    (hL : ∀ c ∈ L, isUpperAlpha c = true) (hLne : L ≠ [])
    (hD : ∀ c ∈ D, isDigitChar c = true) (hDne : D ≠ [])
    (hR : ∀ c, R.head? = some c → isDigitChar c = false) :
    generalMatch (L ++ (D ++ R)) = some (L ++ stripZeros D) := by
  have hDhead : ∀ c, (D ++ R).head? = some c → isUpperAlpha c = false := by
    intro c hc
    cases D with
    | nil => exact absurd rfl hDne
    | cons d t =>
      simp only [List.cons_append, List.head?_cons, Option.some.injEq] at hc
      rw [← hc]
      exact upper_false_of_digit (hD d (by simp))
  have h1 : (L ++ (D ++ R)).takeWhile isUpperAlpha = L :=
    takeWhile_append_all L (D ++ R) hL hDhead
  have h2 : (L ++ (D ++ R)).dropWhile isUpperAlpha = D ++ R :=
    dropWhile_append_all L (D ++ R) hL hDhead
  have h3 : (D ++ R).takeWhile isDigitChar = D := takeWhile_append_all D R hD hR
  unfold generalMatch
  rw [h1, h2, h3]
  rw [if_neg (by simpa [List.isEmpty_iff] using hLne)]
  rw [if_neg (by simpa [List.isEmpty_iff] using hDne)]

theorem generalMatch_eq_some_inv {cs r : List Char} (h : generalMatch cs = some r) :
    r = cs.takeWhile isUpperAlpha ++
        stripZeros ((cs.dropWhile isUpperAlpha).takeWhile isDigitChar) ∧
      cs.takeWhile isUpperAlpha ≠ [] ∧
      (cs.dropWhile isUpperAlpha).takeWhile isDigitChar ≠ [] := by
  unfold generalMatch at h
  by_cases h1 : (cs.takeWhile isUpperAlpha).isEmpty = true
  · rw [if_pos h1] at h
    exact absurd h (by simp)
  · rw [if_neg h1] at h
    by_cases h2 : ((cs.dropWhile isUpperAlpha).takeWhile isDigitChar).isEmpty = true
    · rw [if_pos h2] at h
      exact absurd h (by simp)
    · rw [if_neg h2] at h
      rw [Option.some_inj] at h
      exact ⟨h.symm, by simpa [List.isEmpty_iff] using h1,
        by simpa [List.isEmpty_iff] using h2⟩

/-! ### Branch computation facts for the normalizer -/

theorem normalize_eq_maine {s : String} {ds : List Char}
    (hm : maineMatch s.data = some ds) :
    normalize_bill_number (some s) =
      some (String.mk ('L' :: 'D' :: natToDecimal (natOfDigits ds))) := by
  show (match maineMatch s.data with
    | some ds => some (String.mk ('L' :: 'D' :: natToDecimal (natOfDigits ds)))
    | none =>
      match generalMatch (cleanedOf s) with
      | some r => some (String.mk (pyStrip r))
      | none => some (String.mk (pyStrip (cleanedOf s)))) = _
  rw [hm]

theorem normalize_eq_of_gm_some {s : String} {r : List Char}
    (hm : maineMatch s.data = none) (hg : generalMatch (cleanedOf s) = some r) :
    normalize_bill_number (some s) = some (String.mk (pyStrip r)) := by
  show (match maineMatch s.data with
    | some ds => some (String.mk ('L' :: 'D' :: natToDecimal (natOfDigits ds)))
    | none =>
      match generalMatch (cleanedOf s) with
      | some r => some (String.mk (pyStrip r))
      | none => some (String.mk (pyStrip (cleanedOf s)))) = _
  rw [hm]
  show (match generalMatch (cleanedOf s) with
    | some r => some (String.mk (pyStrip r))
    | none => some (String.mk (pyStrip (cleanedOf s)))) = _
  rw [hg]

theorem normalize_eq_of_gm_none {s : String}
    (hm : maineMatch s.data = none) (hg : generalMatch (cleanedOf s) = none) :
    normalize_bill_number (some s) = some (String.mk (pyStrip (cleanedOf s))) := by
  show (match maineMatch s.data with
    | some ds => some (String.mk ('L' :: 'D' :: natToDecimal (natOfDigits ds)))
    | none =>
      match generalMatch (cleanedOf s) with
      | some r => some (String.mk (pyStrip r))
      | none => some (String.mk (pyStrip (cleanedOf s)))) = _
  rw [hm]
  show (match generalMatch (cleanedOf s) with
    | some r => some (String.mk (pyStrip r))
    | none => some (String.mk (pyStrip (cleanedOf s)))) = _
  rw [hg]

/-! ### The cleaning pipeline fixes already-clean strings -/

theorem cleanedOf_mk_eq_self {l : List Char}
    (hfix : ∀ c ∈ l, upperChar c = c)
    (hnd : '.' ∉ l) (hnw : ∀ c ∈ l, isPySpace c = false)
    (hnp : ¬List.Sublist ['(', ')'] l) :
    cleanedOf (String.mk l) = l := by
  unfold cleanedOf
  have h1 : (String.mk l).data = l := rfl
  rw [h1, map_eq_self_of l hfix, removeParens_eq_self hnp]
  have hper : ∀ c ∈ l, (!(c == '.')) = true := by
    intro c hc
    have hne : c ≠ '.' := fun he => hnd (he ▸ hc)
    simpa using hne
  have hws : ∀ c ∈ l, (!(isPySpace c)) = true := by
    intro c hc
    simp [hnw c hc]
  unfold removePeriods removeWhitespace
  rw [List.filter_eq_self.mpr hper, List.filter_eq_self.mpr hws]

/-- The normalizer fixes any string of the shape letters-then-digits whose
digit run is already zero-stripped: the shape of every non-pass-through
output of the normalizer. -/
theorem normalize_LD {L D : List Char}
    (hL : ∀ c ∈ L, isUpperAlpha c = true) (hLne : L ≠ [])
    (hD : ∀ c ∈ D, isDigitChar c = true) (hDne : D ≠ [])
    (hfix : stripZeros D = D) :
    normalize_bill_number (some (String.mk (L ++ D))) = some (String.mk (L ++ D)) := by
  have hall : ∀ c ∈ L ++ D, isUpperAlpha c = true ∨ isDigitChar c = true := by
    intro c hc
    rcases List.mem_append.mp hc with hc | hc
    · exact Or.inl (hL c hc)
    · exact Or.inr (hD c hc)
  have hnd : '.' ∉ L ++ D := by
    intro hc
    rcases hall '.' hc with h | h
    · exact not_dot_of_upper h rfl
    · exact not_dot_of_digit h rfl
  have hnw : ∀ c ∈ L ++ D, isPySpace c = false := by
    intro c hc
    rcases hall c hc with h | h
    · exact pySpace_false_of_upper h
    · exact pySpace_false_of_digit h
  have hfixu : ∀ c ∈ L ++ D, upperChar c = c := by
    intro c hc
    rcases hall c hc with h | h
    · exact upperChar_of_upper h
    · exact upperChar_of_digit h
  have hnp : ¬List.Sublist ['(', ')'] (L ++ D) := by
    apply noPair_of_no_lparen
    intro hc
    rcases hall '(' hc with h | h
    · exact not_lparen_of_upper h rfl
    · exact not_lparen_of_digit h rfl
  have hm : maineMatch (String.mk (L ++ D)).data = none := maineMatch_eq_none_of_no_dot hnd
  have hcl : cleanedOf (String.mk (L ++ D)) = L ++ D :=
    cleanedOf_mk_eq_self hfixu hnd hnw hnp
  have hg : generalMatch (cleanedOf (String.mk (L ++ D))) = some (L ++ stripZeros D) := by
    rw [hcl]
    have hgen := generalMatch_eq_some_of (R := []) hL hLne hD hDne
      (by intro c hc; simp at hc)
    simpa using hgen
  rw [normalize_eq_of_gm_some hm hg, hfix]
  rw [pyStrip_eq_self _ hnw]

/-! ### Character-class facts about the cleaned form -/

theorem cleanedOf_no_ws (s : String) : ∀ c ∈ cleanedOf s, isPySpace c = false := by
  intro c hc
  unfold cleanedOf removeWhitespace at hc
  have h1 := List.of_mem_filter hc
  simpa using h1

theorem cleanedOf_no_dot (s : String) : '.' ∉ cleanedOf s := by
  intro hc
  unfold cleanedOf removeWhitespace removePeriods at hc
  have h1 := (List.mem_filter.mp hc).1
  have h2 := List.of_mem_filter h1
  simp at h2

theorem cleanedOf_mem_upper (s : String) : ∀ c ∈ cleanedOf s, upperChar c = c := by
  intro c hc
  unfold cleanedOf removeWhitespace removePeriods at hc
  have h1 := (List.mem_filter.mp hc).1
  have h2 := (List.mem_filter.mp h1).1
  have h3 := removeParens_mem h2
  obtain ⟨b, hb, he⟩ := List.mem_map.mp h3
  rw [← he]
  exact upperChar_idem b

theorem cleanedOf_noPair {s : String} (hnl : '\n' ∉ s.data) :
    ¬List.Sublist ['(', ')'] (cleanedOf s) := by
  intro hs
  have hnlm : '\n' ∉ s.data.map upperChar := by
    intro hm
    obtain ⟨b, hb, he⟩ := List.mem_map.mp hm
    have hb2 := upperChar_eq_newline he
    rw [hb2] at hb
    exact hnl hb
  exact removeParens_noPair hnlm
    (hs.trans ((List.filter_sublist _).trans (List.filter_sublist _)))

/-- On input with no newline, the pass-through output of the normalizer is
a fixed point of the normalizer. -/
theorem normalize_fix_passthrough {s : String} (hnl : '\n' ∉ s.data)
    (hg : generalMatch (cleanedOf s) = none) :
    normalize_bill_number (some (String.mk (cleanedOf s))) =
      some (String.mk (cleanedOf s)) := by
  have hnd : '.' ∉ cleanedOf s := cleanedOf_no_dot s
  have hm2 : maineMatch (String.mk (cleanedOf s)).data = none :=
    maineMatch_eq_none_of_no_dot hnd
  have hcl : cleanedOf (String.mk (cleanedOf s)) = cleanedOf s :=
    cleanedOf_mk_eq_self (cleanedOf_mem_upper s) hnd (cleanedOf_no_ws s)
      (cleanedOf_noPair hnl)
  have hg2 : generalMatch (cleanedOf (String.mk (cleanedOf s))) = none := by
    rw [hcl]; exact hg
  rw [normalize_eq_of_gm_none hm2 hg2, hcl]
  rw [pyStrip_eq_self _ (cleanedOf_no_ws s)]

/-- C2 (amended): the normalizer is idempotent on every present input that
contains no newline character.  `normalize_bill_number (some s)` is a fixed
point of the normalizer whenever `s` has no newline. -/
theorem claim2_idempotent_of_no_newline (s : String) (h : '\n' ∉ s.data) :
    normalize_bill_number (normalize_bill_number (some s)) =
      normalize_bill_number (some s) := by
  cases hm : maineMatch s.data with
  | some ds =>
    rw [normalize_eq_maine hm]
    have hL : ∀ c ∈ ['L', 'D'], isUpperAlpha c = true := by decide
    have hfix := normalize_LD (L := ['L', 'D']) (D := natToDecimal (natOfDigits ds))
      hL (by simp) (natToDecimal_digits _) (natToDecimal_ne_nil _)
      (stripZeros_natToDecimal _)
    exact hfix
  | none =>
    cases hg : generalMatch (cleanedOf s) with
    | some r =>
      rw [normalize_eq_of_gm_some hm hg]
      obtain ⟨hr, hLne, hDne⟩ := generalMatch_eq_some_inv hg
      have hL : ∀ c ∈ (cleanedOf s).takeWhile isUpperAlpha, isUpperAlpha c = true :=
        fun c hc => List.mem_takeWhile_imp hc
      have hD0 : ∀ c ∈ ((cleanedOf s).dropWhile isUpperAlpha).takeWhile isDigitChar,
          isDigitChar c = true :=
        fun c hc => List.mem_takeWhile_imp hc
      have hD : ∀ c ∈ stripZeros (((cleanedOf s).dropWhile isUpperAlpha).takeWhile isDigitChar),
          isDigitChar c = true := stripZeros_digits hD0
      have hnw : ∀ c ∈ r, isPySpace c = false := by
        intro c hc
        rw [hr] at hc
        rcases List.mem_append.mp hc with hc | hc
        · exact pySpace_false_of_upper (hL c hc)
        · exact pySpace_false_of_digit (hD c hc)
      rw [pyStrip_eq_self r hnw, hr]
      exact normalize_LD hL hLne hD (stripZeros_ne_nil _) (stripZeros_idem _)
    | none =>
      rw [normalize_eq_of_gm_none hm hg]
      rw [pyStrip_eq_self _ (cleanedOf_no_ws s)]
      exact normalize_fix_passthrough h hg

/-- C1: the seven docstring examples of the bill-number normalizer. -/
theorem claim1_normalizer_examples :
    normalize_bill_number (some "S.350") = some "S350" ∧
    normalize_bill_number (some "H.B.158") = some "HB158" ∧
    normalize_bill_number (some "S.F.473") = some "SF473" ∧
    normalize_bill_number (some "L.D. 1134 (S.P. 461)") = some "LD1134" ∧
    normalize_bill_number (some "H.B. 229") = some "HB229" ∧
    normalize_bill_number (some "H.C.R.2042") = some "HCR2042" ∧
    normalize_bill_number (some "S.B.0009") = some "SB9" := by
  decide

/-- C2 (counterexample): the normalizer is not idempotent on every
non-missing input.  For the input whose three characters are an opening
parenthesis, a newline and a closing parenthesis, the first pass keeps the
parenthetical (the regex dot cannot cross the newline) but deletes the
newline as whitespace, and the second pass then deletes the completed
parenthetical. -/
theorem claim2_idempotence_counterexample :
    normalize_bill_number (normalize_bill_number (some "(\n)")) ≠
      normalize_bill_number (some "(\n)") := by
  decide

/-- Witness for C2 (amended) at a concrete input. -/
theorem claim2_idempotent_witness :
    '\n' ∉ ("S.B.0009" : String).data ∧
      normalize_bill_number (normalize_bill_number (some "S.B.0009")) =
        normalize_bill_number (some "S.B.0009") :=
  ⟨by decide, claim2_idempotent_of_no_newline "S.B.0009" (by decide)⟩

/-- C3 (counterexample): the empty string is not mapped to the
missing-value marker; `pd.isna("")` is false, so the empty string falls
through the cleaning steps and is returned as the empty string. -/
theorem claim3_empty_string_counterexample :
    normalize_bill_number (some "") ≠ none := by
  decide

/-- C3 (amended): a missing input is returned as the missing marker
unchanged, and the empty string is returned as the empty string (a
present value, not the missing marker). -/
theorem claim3_missing_and_empty_behavior :
    normalize_bill_number none = none ∧ normalize_bill_number (some "") = some "" := by
  decide

/-- C9: the normalizer is total on present strings (it always returns a
present string, never the missing marker and never a failure), and a
string whose cleaned form does not match the leading letters-then-digits
pattern is returned as its cleaned form, not rejected. -/
theorem claim9_normalizer_total_passthrough :
    (∀ s : String, ∃ t : String, normalize_bill_number (some s) = some t) ∧
      (∀ s : String, maineMatch s.data = none → generalMatch (cleanedOf s) = none →
        normalize_bill_number (some s) = some (String.mk (cleanedOf s))) := by
  constructor
  · intro s
    cases hm : maineMatch s.data with
    | some ds => exact ⟨_, normalize_eq_maine hm⟩
    | none =>
      cases hg : generalMatch (cleanedOf s) with
      | some r => exact ⟨_, normalize_eq_of_gm_some hm hg⟩
      | none => exact ⟨_, normalize_eq_of_gm_none hm hg⟩
  · intro s hm hg
    rw [normalize_eq_of_gm_none hm hg]
    rw [pyStrip_eq_self _ (cleanedOf_no_ws s)]

/-- Witness for C9 at a concrete input with no digits. -/
theorem claim9_witness :
    (∃ t : String, normalize_bill_number (some "NOBILL") = some t) ∧
      normalize_bill_number (some "NOBILL") = some (String.mk (cleanedOf "NOBILL")) :=
  ⟨claim9_normalizer_total_passthrough.1 "NOBILL",
   claim9_normalizer_total_passthrough.2 "NOBILL" (by decide) (by decide)⟩

/-- C10: in the general case, whenever the cleaned form is a non-empty
uppercase-letter run, followed by a non-empty digit run, followed by any
remainder that does not start with a digit, the result is the letter run
plus the zero-stripped digit run only: every character after the first
digit run is discarded (concretely, `S.B.9A` gives `SB9`). -/
theorem claim10_trailing_discarded :
    normalize_bill_number (some "S.B.9A") = some "SB9" ∧
      ∀ (s : String) (pre ds rest : List Char),
        maineMatch s.data = none →
        cleanedOf s = pre ++ (ds ++ rest) →
        pre ≠ [] → (∀ c ∈ pre, isUpperAlpha c = true) →
        ds ≠ [] → (∀ c ∈ ds, isDigitChar c = true) →
        (∀ c, rest.head? = some c → isDigitChar c = false) →
        normalize_bill_number (some s) = some (String.mk (pre ++ stripZeros ds)) := by
  constructor
  · decide
  · intro s pre ds rest hm hcl hpre hup hds hdig hrest
    have hg : generalMatch (cleanedOf s) = some (pre ++ stripZeros ds) := by
      rw [hcl]
      exact generalMatch_eq_some_of hup hpre hdig hds hrest
    rw [normalize_eq_of_gm_some hm hg]
    have hnw : ∀ c ∈ pre ++ stripZeros ds, isPySpace c = false := by
      intro c hc
      rcases List.mem_append.mp hc with hc | hc
      · exact pySpace_false_of_upper (hup c hc)
      · exact pySpace_false_of_digit (stripZeros_digits hdig c hc)
    rw [pyStrip_eq_self _ hnw]

/-- Witness for C10 at the concrete input `S.B.9A`. -/
theorem claim10_witness :
    normalize_bill_number (some "S.B.9A") =
      some (String.mk (['S', 'B'] ++ stripZeros ['9'])) :=
  claim10_trailing_discarded.2 "S.B.9A" ['S', 'B'] ['9'] ['A'] (by decide) (by decide)
    (by decide) (by decide) (by decide) (by decide) (by decide)

/-! ### Facts about the four-digit search -/

theorem hasFourDigitWindow_length {l : List Char} (h : hasFourDigitWindow l) :
    4 ≤ l.length := by
  obtain ⟨p, a, b, c, d, q, he, _⟩ := h
  subst he
  simp [List.length_append]
  omega

theorem findFourDigits_none :
    ∀ l : List Char, findFourDigits l = none → ¬hasFourDigitWindow l
  | [], _, hw => absurd (hasFourDigitWindow_length hw) (by simp)
  | [a], _, hw => absurd (hasFourDigitWindow_length hw) (by simp)
  | [a, b], _, hw => absurd (hasFourDigitWindow_length hw) (by simp)
  | [a, b, c], _, hw => absurd (hasFourDigitWindow_length hw) (by simp)
  | a :: b :: c :: d :: rest, h, hw => by
    simp only [findFourDigits] at h
    split at h
    · exact absurd h (by simp)
    · rename_i hcond
      obtain ⟨p, a2, b2, c2, d2, q, he, h1, h2, h3, h4⟩ := hw
      cases p with
      | nil =>
        simp only [List.nil_append, List.cons_append, List.cons.injEq] at he
        obtain ⟨e1, e2, e3, e4, _⟩ := he
        subst e1; subst e2; subst e3; subst e4
        simp [h1, h2, h3, h4] at hcond
      | cons x p2 =>
        injection he with e1 he2
        exact findFourDigits_none (b :: c :: d :: rest) h
          ⟨p2, a2, b2, c2, d2, q, he2, h1, h2, h3, h4⟩

theorem findFourDigits_some :
    ∀ l ds : List Char, findFourDigits l = some ds →
      ∃ p q, l = p ++ ds ++ q ∧ ds.length = 4 ∧ ∀ c ∈ ds, isDigitChar c = true
  | a :: b :: c :: d :: rest, ds, h => by
    simp only [findFourDigits] at h
    split at h
    · rename_i hcond
      rw [Option.some_inj] at h
      subst h
      refine ⟨[], rest, by simp, by simp, ?_⟩
      simp only [Bool.and_eq_true] at hcond
      intro x hx
      simp only [List.mem_cons, List.not_mem_nil, or_false] at hx
      rcases hx with e | e | e | e <;> subst e <;> tauto
    · obtain ⟨p, q, he, hlen, hds⟩ := findFourDigits_some (b :: c :: d :: rest) ds h
      exact ⟨a :: p, q, by simp [he], hlen, hds⟩

theorem window_of_findFourDigits_some {l ds : List Char}
    (h : findFourDigits l = some ds) : hasFourDigitWindow l := by
  obtain ⟨p, q, he, hlen, hds⟩ := findFourDigits_some l ds h
  rcases ds with _ | ⟨a, ds⟩
  · simp at hlen
  rcases ds with _ | ⟨b, ds⟩
  · simp at hlen
  rcases ds with _ | ⟨c, ds⟩
  · simp at hlen
  rcases ds with _ | ⟨d, ds⟩
  · simp at hlen
  rcases ds with _ | ⟨x, ds⟩
  · exact ⟨p, a, b, c, d, q, he, hds a (by simp), hds b (by simp),
      hds c (by simp), hds d (by simp)⟩
  · simp only [List.length_cons] at hlen
    omega

/-- C4: the year extractor returns the fixed fallback `2025` on a missing
input and on any string with no window of four consecutive digits, and on
a string with such a window it returns the integer value of a four-digit
all-digit window of the string (the example `01/19/2025` giving `2025`). -/
theorem claim4_extract_year :
    extract_year none = 2025 ∧
    extract_year (some "01/19/2025") = 2025 ∧
    (∀ s : String, ¬hasFourDigitWindow s.data → extract_year (some s) = 2025) ∧
    (∀ s : String, hasFourDigitWindow s.data →
      ∃ ds p q, s.data = p ++ ds ++ q ∧ ds.length = 4 ∧
        (∀ c ∈ ds, isDigitChar c = true) ∧ extract_year (some s) = natOfDigits ds) := by
  refine ⟨by decide, by decide, ?_, ?_⟩
  · intro s hw
    cases hf : findFourDigits s.data with
    | some ds => exact absurd (window_of_findFourDigits_some hf) hw
    | none =>
      show (match findFourDigits s.data with
        | some ds => natOfDigits ds
        | none => 2025) = 2025
      rw [hf]
  · intro s hw
    cases hf : findFourDigits s.data with
    | none => exact absurd hw (findFourDigits_none s.data hf)
    | some ds =>
      obtain ⟨p, q, he, hlen, hds⟩ := findFourDigits_some s.data ds hf
      refine ⟨ds, p, q, he, hlen, hds, ?_⟩
      show (match findFourDigits s.data with
        | some ds => natOfDigits ds
        | none => 2025) = natOfDigits ds
      rw [hf]

/-- Witness for C4 at concrete inputs: a string with no four-digit window
falls back to 2025, and the example date yields a window valued 2025. -/
theorem claim4_extract_year_witness :
    extract_year (some "no") = 2025 ∧
      ∃ ds p q, ("01/19/2025" : String).data = p ++ ds ++ q ∧ ds.length = 4 ∧
        (∀ c ∈ ds, isDigitChar c = true) ∧
        extract_year (some "01/19/2025") = natOfDigits ds :=
  ⟨claim4_extract_year.2.2.1 "no"
      (fun hw => by
        have hl := hasFourDigitWindow_length hw
        simp at hl),
    claim4_extract_year.2.2.2 "01/19/2025"
      ⟨("01/19/" : String).data, '2', '0', '2', '5', [], by decide, by decide,
        by decide, by decide, by decide⟩⟩

/-! ### Facts about the issue categorizer -/

theorem categorize_ne_nil (x : Option String) : categorize_issues x ≠ [] := by
  cases x with
  | none => simp [categorize_issues]
  | some s =>
    simp only [categorize_issues]
    split
    · simp
    · rename_i h
      simpa [List.isEmpty_iff] using h

theorem categorize_eq_other {s : String}
    (hall : ∀ g ∈ keywordGroups, groupMatches (s.data.map lowerChar) g = false) :
    categorize_issues (some s) = ["other"] := by
  have hnil : keywordGroups.filter (groupMatches (s.data.map lowerChar)) = [] := by
    rw [List.filter_eq_nil_iff]
    intro g hg
    simp [hall g hg]
  simp [categorize_issues, hnil]

theorem mem_categorize {s : String} {cat : String} :
    cat ∈ categorize_issues (some s) ↔
      ((∃ g ∈ keywordGroups, groupMatches (s.data.map lowerChar) g = true ∧ cat = g.2) ∨
        ((∀ g ∈ keywordGroups, groupMatches (s.data.map lowerChar) g = false) ∧
          cat = "other")) := by
  by_cases hall : ∀ g ∈ keywordGroups, groupMatches (s.data.map lowerChar) g = false
  · rw [categorize_eq_other hall]
    simp only [List.mem_singleton]
    constructor
    · intro h
      exact Or.inr ⟨hall, h⟩
    · rintro (⟨g, hg, hm, _⟩ | ⟨_, h⟩)
      · rw [hall g hg] at hm
        exact absurd hm (by simp)
      · exact h
  · have hne : (keywordGroups.filter (groupMatches (s.data.map lowerChar))).map Prod.snd ≠ [] := by
      intro he
      apply hall
      intro g hg
      have hf : keywordGroups.filter (groupMatches (s.data.map lowerChar)) = [] :=
        List.map_eq_nil_iff.mp he
      have := List.filter_eq_nil_iff.mp hf g hg
      simpa using this
    have he : categorize_issues (some s) =
        (keywordGroups.filter (groupMatches (s.data.map lowerChar))).map Prod.snd := by
      simp only [categorize_issues]
      rw [if_neg (by simpa [List.isEmpty_iff] using hne)]
    rw [he]
    constructor
    · intro h
      obtain ⟨g, hg, hge⟩ := List.mem_map.mp h
      have hgf := List.mem_filter.mp hg
      exact Or.inl ⟨g, hgf.1, hgf.2, hge.symm⟩
    · rintro (⟨g, hg, hm, hcat⟩ | ⟨hallf, _⟩)
      · exact List.mem_map.mpr ⟨g, List.mem_filter.mpr ⟨hg, hm⟩, hcat.symm⟩
      · exact absurd hallf hall

/-- C5: the issue categorizer always returns a non-empty label list; the
result is exactly the singleton `other` on a missing input and on any
text matching none of the nine keyword groups; a label is in the result
exactly when its group has a keyword occurring in the lowercased text (or
it is the `other` fallback and no group matches); and a text containing
only the keywords `school` and `drag` yields exactly the education and
expression labels. -/
theorem claim5_categorizer :
    (∀ x : Option String, categorize_issues x ≠ []) ∧
    categorize_issues none = ["other"] ∧
    (∀ s : String, (∀ g ∈ keywordGroups, groupMatches (s.data.map lowerChar) g = false) →
      categorize_issues (some s) = ["other"]) ∧
    (∀ s cat : String,
      cat ∈ categorize_issues (some s) ↔
        ((∃ g ∈ keywordGroups, groupMatches (s.data.map lowerChar) g = true ∧ cat = g.2) ∨
          ((∀ g ∈ keywordGroups, groupMatches (s.data.map lowerChar) g = false) ∧
            cat = "other"))) ∧
    categorize_issues (some "school drag") = ["education", "expression"] := by
  exact ⟨categorize_ne_nil, rfl, fun s h => categorize_eq_other h,
    fun s cat => mem_categorize, by decide⟩

/-- Witness for C5: the no-match fallback applied to a concrete text, and
one direction of the membership characterization at a concrete text. -/
theorem claim5_categorizer_witness :
    categorize_issues (some "zzz") = ["other"] ∧
      "healthcare" ∈ categorize_issues (some "Healthcare access") :=
  ⟨claim5_categorizer.2.2.1 "zzz" (by decide),
    (claim5_categorizer.2.2.2.1 "Healthcare access" "healthcare").mpr
      (Or.inl ⟨(["healthcare", "medical"], "healthcare"), by decide, by decide, rfl⟩)⟩

/-- C6: the pipeline yields exactly one output record per kept input row
(the count after footer filtering), in the same order: the record at each
index is built from the kept row at that index. -/
theorem claim6_pipeline_one_to_one_ordered (rows : List InputRow) :
    (build_classification_dict rows).length = (rows.filter keepRow).length ∧
      ∀ i : Nat, (build_classification_dict rows)[i]? =
        ((rows.filter keepRow)[i]?).map mkRecord := by
  constructor
  · simp [build_classification_dict]
  · intro i
    simp [build_classification_dict, List.getElem?_map]

/-- C7: every record the pipeline produces carries the constant label
`harmful`, the constant source tag `aclu_tracker`, and empty placeholders
for the two external LegiScan fields. -/
theorem claim7_constant_fields (rows : List InputRow) (r : Record)
    (h : r ∈ build_classification_dict rows) :
    r.label = "harmful" ∧ r.source = "aclu_tracker" ∧
      r.legiscan_bill_id = none ∧ r.legiscan_text_url = none := by
  obtain ⟨row, hrow, he⟩ := List.mem_map.mp h
  subst he
  exact ⟨rfl, rfl, rfl, rfl⟩

/-- Witness for C7: the constant fields of the record built from a
concrete row. -/
theorem claim7_constant_fields_witness :
    (mkRecord sampleRow).label = "harmful" ∧
      (mkRecord sampleRow).source = "aclu_tracker" ∧
      (mkRecord sampleRow).legiscan_bill_id = none ∧
      (mkRecord sampleRow).legiscan_text_url = none :=
  claim7_constant_fields [sampleRow] (mkRecord sampleRow) (List.mem_singleton.mpr rfl)

/-- C8: the static state map covers all fifty state names plus the
District of Columbia, and on any name outside the map the resolution
falls back to the first two characters of the input, uppercased (it is
total: no lookup can fail). -/
theorem claim8_state_map_total :
    (∀ n ∈ usStateNames, (STATE_ABBREV.lookup n).isSome = true) ∧
      ∀ s : String, STATE_ABBREV.lookup s = none →
        resolveStateAbbrev s = firstTwoUpper s := by
  constructor
  · decide
  · intro s h
    simp [resolveStateAbbrev, h]

/-- Witness for C8: a mapped name resolves through the map, and a name
outside the map falls back to its first two characters uppercased. -/
theorem claim8_state_map_witness :
    (STATE_ABBREV.lookup "Maine").isSome = true ∧
      resolveStateAbbrev "Puerto Rico" = firstTwoUpper "Puerto Rico" :=
  ⟨claim8_state_map_total.1 "Maine" (by decide),
    claim8_state_map_total.2 "Puerto Rico" (by decide)⟩
